import Mathlib

/- Verification of the develop-mode build orchestrator (src/scripts/develop.js).

   The embedding models strings as `List Char` and the parsed package
   descriptor (`package.json`) as the `Json` inductive below.  The functions
   mirror the JavaScript source line by line:

   * `resolveAux` / `jsStep`   — the `value.split('.').reduce(...)` loop of
     `injectPackageJsonData` / `injectPackageVariables` (develop.js:135-140,
     191-196), including the `result === null` restart branch, the `?? ''`
     coalescing and the possibility of a thrown TypeError when indexing
     `undefined` (which `?? ''` makes unreachable);
   * `getProp`                 — JavaScript own-property access used by
     `packageJson[current]` / `result[current]`: object key lookup, and the
     `length` / canonical-index own properties of strings and arrays
     (function-valued prototype properties are not representable and are
     modelled as absent; the reduce never produces a function from JSON data);
   * `getSub` / `jsReplaceFirst` — `String.prototype.replace(searchString,
     replacementString)`: the search is literal (first occurrence), while the
     replacement string undergoes the ECMAScript GetSubstitution rules for
     `$$`, `$&`, `$` followed by backtick, and `$'`;
   * `findMarkers`             — the global regex
     `/(?<=\x7b\x7b)package\.json:.+?(?=\x7d\x7d)/g` (develop.js:129, 186);
   * `localize` and friends    — develop.js:174-183;
   * `assembleStep` / `handleBuildResultE` / `onEnd` — the build-result
     handler and the dev-output plugin (develop.js:35-54, 101-126, 153-162);
   * `handleRequest`           — the HTTP responder (develop.js:164-172). -/

def lbr : Char := Char.ofNat 123

def rbr : Char := Char.ofNat 125

def btChar : Char := Char.ofNat 96

def qChar : Char := Char.ofNat 39

def nulChar : Char := Char.ofNat 0

def dollarChar : Char := '$'

/-- `startsWith pat s` is true when `pat` is an initial segment of `s`. -/
def startsWith : List Char → List Char → Bool
  | [], _ => true
  | _ :: _, [] => false
  | p :: pt, c :: ct => if p = c then startsWith pt ct else false

/-- First-occurrence split: `splitFirst pat s = some (pre, post)` when the
first (leftmost) occurrence of `pat` in `s` has `pre` before it and `post`
after it; `none` when `pat` does not occur.  This is the search semantics of
JavaScript `String.prototype.replace` with a string pattern. -/
def splitFirst (pat : List Char) : List Char → Option (List Char × List Char)
  | [] => if startsWith pat [] then some ([], []) else none
  | c :: t =>
    if startsWith pat (c :: t) then some ([], (c :: t).drop pat.length)
    else (splitFirst pat t).map (fun pr => (c :: pr.1, pr.2))

/-- `containsSubB s pat`: does `pat` occur in `s`? -/
def containsSubB (s pat : List Char) : Bool := (splitFirst pat s).isSome

/-- ECMAScript GetSubstitution for a string (captureless) pattern:
`$$` yields `$`, `$&` yields the matched text (here the pattern itself),
`$` + backtick yields the text before the match, `$'` the text after it;
any other `$` sequence is literal. -/
def getSub (pat pre post : List Char) : List Char → List Char
  | [] => []
  | c :: r =>
    if c = dollarChar then
      match r with
      | [] => [c]
      | c2 :: r2 =>
        if c2 = dollarChar then dollarChar :: getSub pat pre post r2
        else if c2 = '&' then pat ++ getSub pat pre post r2
        else if c2 = btChar then pre ++ getSub pat pre post r2
        else if c2 = qChar then post ++ getSub pat pre post r2
        else c :: getSub pat pre post (c2 :: r2)
    else c :: getSub pat pre post r

/-- Does the replacement text contain a `$` sequence that GetSubstitution
treats specially (`$$`, `$&`, `$` + backtick, `$'`)? -/
def hasDollarSeq : List Char → Bool
  | [] => false
  | c :: r =>
    if c = dollarChar then
      match r with
      | [] => false
      | c2 :: r2 =>
        if c2 = dollarChar ∨ c2 = '&' ∨ c2 = btChar ∨ c2 = qChar then true
        else hasDollarSeq (c2 :: r2)
    else hasDollarSeq r

/-- JavaScript `s.replace(pat, rep)` with string arguments: replace the first
occurrence of `pat` literally, applying GetSubstitution to `rep`.  This is
the string-replacement branch of `String.prototype.replace`; the source can
reach the functional-replacer branch only when the replacement value is a
function (an inherited built-in method resolved by the dotted path), which
the relevant theorems exclude by hypothesis. -/
def jsReplaceFirst (s pat rep : List Char) : List Char :=
  match splitFirst pat s with
  | none => s
  | some pr => pr.1 ++ getSub pat pr.1 pr.2 rep ++ pr.2

/-- JSON values as parsed from `package.json` (develop.js:33).  Numbers are
modelled as integers (the descriptor contains no fractional numbers; the
claims under verification do not depend on float formatting). -/
inductive Json where
  | null : Json
  | bool : Bool → Json
  | num : Int → Json
  | str : List Char → Json
  | arr : List Json → Json
  | obj : List (List Char × Json) → Json

/-- A JavaScript value flowing through the reduce: either `undefined` or a
JSON value (`Json.null` plays the role of JavaScript `null`). -/
inductive JsVal where
  | undef : JsVal
  | val : Json → JsVal

/-- First-match association lookup (JavaScript object property read; the
parser output has unique keys). -/
def alookup : List (List Char × Json) → List Char → Option Json
  | [], _ => none
  | kv :: t, key => if kv.1 = key then some kv.2 else alookup t key

def lengthChars : List Char := "length".data

def isDigitChar (c : Char) : Bool := 48 ≤ c.toNat && c.toNat ≤ 57

/-- A canonical array-index property name: digits only, no leading zero
(except "0" itself). -/
def isCanonIndex : List Char → Bool
  | [] => false
  | c :: t =>
    if c = Char.ofNat 48 then t = []
    else isDigitChar c && t.all isDigitChar

def digitsToNat (l : List Char) : Nat :=
  l.foldl (fun a c => a * 10 + (c.toNat - 48)) 0

/-- JavaScript own-property access `v[key]` for JSON data: objects by key
(JSON.parse defines every key of the source text, "__proto__" included, as
an own data property); strings and arrays expose their own `length` and
canonical integer index properties; `null`, booleans and numbers have no own
properties.  `none` means the own lookup misses.  The prototype chain is not
modelled: in the source an inherited name (`toString`, `charAt`,
`constructor`, ...) resolves to a built-in function, a value outside the
JSON data model.  Theorems that depend on a lookup missing therefore either
require every step to hit an own property (`ownResolve` below), or use
concrete segment names (`a`, `b`, `c`, `name`) that name no member of the
built-in prototypes, so that the model and the source agree on them. -/
def getProp : Json → List Char → Option Json
  | Json.obj fields, key => alookup fields key
  | Json.arr xs, key =>
    if key = lengthChars then some (Json.num (Int.ofNat xs.length))
    else if isCanonIndex key then xs.get? (digitsToNat key)
    else none
  | Json.str s, key =>
    if key = lengthChars then some (Json.num (Int.ofNat s.length))
    else if isCanonIndex key then (s.get? (digitsToNat key)).map (fun c => Json.str [c])
    else none
  | _, _ => none

/-- The `?? ''` in `packageJson[current] ?? ''` / `result[current] ?? ''`
(develop.js:137,139): both `undefined` (missing property) and `null`
coalesce to the empty string. -/
def coalesce : Option Json → Json
  | none => Json.str []
  | some Json.null => Json.str []
  | some v => v

/-- One step of the reduce callback (develop.js:135-140):
`(result, current) => result === null ? (packageJson[current] ?? '')
: (result[current] ?? '')`.  Indexing `undefined` would throw a TypeError,
modelled as `Except.error`. -/
def jsStep (pkg : Json) (acc : JsVal) (seg : List Char) : Except (List Char) JsVal :=
  match acc with
  | JsVal.undef => Except.error "TypeError".data
  | JsVal.val Json.null => Except.ok (JsVal.val (coalesce (getProp pkg seg)))
  | JsVal.val v => Except.ok (JsVal.val (coalesce (getProp v seg)))

/-- The reduce over the dot-separated path segments. -/
def resolveAux (pkg : Json) (acc : JsVal) : List (List Char) → Except (List Char) JsVal
  | [] => Except.ok acc
  | seg :: rest =>
    match jsStep pkg acc seg with
    | Except.error e => Except.error e
    | Except.ok acc2 => resolveAux pkg acc2 rest

/-- The full reduce with the source's initial accumulator `null`
(develop.js:140). -/
def resolveRun (pkg : Json) (segs : List (List Char)) : Except (List Char) JsVal :=
  resolveAux pkg (JsVal.val Json.null) segs

/-- Total extractor used by the substitution pipeline (the reduce in the
source never throws and never produces `undefined`; the fallback arm is
unreachable). -/
def resolvePath (pkg : Json) (segs : List (List Char)) : Json :=
  match resolveRun pkg segs with
  | Except.ok (JsVal.val v) => v
  | _ => Json.null

def isNullJson : Json → Bool
  | Json.null => true
  | _ => false

/-- Primitive JSON values (string, number, boolean): for these, JavaScript
ToString of the replacement value is exactly the text `jsToString` gives;
objects and arrays can carry own `toString`/`valueOf` keys that change (or
break) coercion, so theorems about verbatim insertion restrict to
primitives. -/
def isPrimJson : Json → Bool
  | Json.str _ => true
  | Json.num _ => true
  | Json.bool _ => true
  | _ => false

/-- Own-property evaluation of a dotted path: every segment must hit an own
property of the current value (the first on the top-level descriptor), with
non-null intermediate values; a null terminal value coalesces to the empty
string exactly as `?? ''` does.  On this domain the source's reduce takes
exactly these values: an own property shadows anything on the prototype
chain, so the model's `getProp` and JavaScript agree at every step, and the
result is JSON data (never a built-in function). -/
def ownResolve : Json → List (List Char) → Option Json
  | v, [] => some v
  | v, s :: rest =>
    match getProp v s with
    | none => none
    | some w =>
      match rest with
      | [] => some (coalesce (some w))
      | _ :: _ => if isNullJson w then none else ownResolve w rest

/-- Decimal digits of an integer (JavaScript ToString for the integral
numbers that occur in the descriptor). -/
def intChars (i : Int) : List Char :=
  if i < 0 then '-' :: Nat.toDigits 10 i.natAbs else Nat.toDigits 10 i.toNat

mutual

/-- JavaScript ToString of a value spliced into the output
(`html.replace(m.match, m.replace)` coerces the replacement).  Arrays
stringify as their elements joined by commas, null elements as empty, as in
`Array.prototype.toString`. -/
def jsToString : Json → List Char
  | Json.null => "null".data
  | Json.bool true => "true".data
  | Json.bool false => "false".data
  | Json.num i => intChars i
  | Json.str s => s
  | Json.obj _ => "[object Object]".data
  | Json.arr xs => List.intercalate [','] (jsArrParts xs)

def jsArrParts : List Json → List (List Char)
  | [] => []
  | Json.null :: t => [] :: jsArrParts t
  | v :: t => jsToString v :: jsArrParts t

end

/-- The characters removed by `String.prototype.trim`: the ECMAScript
WhiteSpace set (TAB, VT, FF, SP, NBSP, ZWNBSP and the Unicode
Space_Separator code points) together with the LineTerminator set (LF, CR,
LS, PS). -/
def isWsChar (c : Char) : Bool :=
  let n := c.toNat
  n == 9 || n == 10 || n == 11 || n == 12 || n == 13 || n == 32 || n == 160 ||
    n == 5760 || (decide (8192 ≤ n) && decide (n ≤ 8202)) || n == 8232 ||
    n == 8233 || n == 8239 || n == 8287 || n == 12288 || n == 65279

def trimChars (l : List Char) : List Char :=
  ((l.dropWhile isWsChar).reverse.dropWhile isWsChar).reverse

/-- `value.split('.')` (develop.js:135,191): always returns at least one
segment; adjacent dots yield empty segments. -/
def splitOnDotAux (acc : List Char) : List Char → List (List Char)
  | [] => [acc.reverse]
  | c :: t => if c = '.' then acc.reverse :: splitOnDotAux [] t else splitOnDotAux (c :: acc) t

def splitOnDot (l : List Char) : List (List Char) := splitOnDotAux [] l

def lb2 : List Char := [lbr, lbr]

def rb2 : List Char := [rbr, rbr]

def pkgHead : List Char := "package.json:".data

def cssMarker : List Char := lb2 ++ "cssOutput".data ++ rb2

def jsMarker : List Char := lb2 ++ "jsOutput".data ++ rb2

def locMarker : List Char := lb2 ++ "localeName".data ++ rb2

def trHead : List Char := lb2 ++ "translate:".data

/-- The translate marker with the optional space present. -/
def trMarkerSp (k : List Char) : List Char := trHead ++ ' ' :: (k ++ rb2)

/-- The braces wrapped back around a regex match
(develop.js:142,198: the template literal around the match text). -/
def braceWrap (m : List Char) : List Char := lb2 ++ m ++ rb2

/-- ECMAScript line terminators, which `.` in a regex does not match. -/
def isLineTerm (c : Char) : Bool :=
  c == '\n' || c == '\r' || c.toNat == 8232 || c.toNat == 8233

/-- The lazy `.+?(?=\x7d\x7d)` tail of the marker regex: the shortest
nonempty run of non-line-terminator characters followed by two closing
braces (the lookahead consumes nothing). -/
def lazyPayload : List Char → Option (List Char)
  | [] => none
  | c :: rest =>
    if isLineTerm c then none
    else if startsWith rb2 rest then some [c]
    else (lazyPayload rest).map (fun p => c :: p)

def lastTwoD (l : List Char) : Char × Char :=
  match l.reverse with
  | x :: y :: _ => (y, x)
  | [x] => (nulChar, x)
  | [] => (nulChar, nulChar)

/-- Scanner for the global regex
`(?<=\x7b\x7b)package\.json:.+?(?=\x7d\x7d)` (develop.js:129,186):
positions are tried left to right; a match requires the two preceding
characters to be opening braces (tracked in the `a`, `b` arguments, seeded
with a sentinel that fails the lookbehind before the start of the text);
after a match the scan resumes at the match end.  The fuel is the remaining
length, which bounds the number of steps. -/
def findAux : Nat → Char → Char → List Char → List (List Char)
  | 0, _, _, _ => []
  | n + 1, a, b, s =>
    match s with
    | [] => []
    | c :: t =>
      if a = lbr ∧ b = lbr ∧ startsWith pkgHead (c :: t) = true then
        match lazyPayload ((c :: t).drop pkgHead.length) with
        | some p =>
          (pkgHead ++ p) ::
            findAux n (lastTwoD (pkgHead ++ p)).1 (lastTwoD (pkgHead ++ p)).2
              ((c :: t).drop (pkgHead.length + p.length))
        | none => findAux n b c t
      else findAux n b c t

def findMarkers (s : List Char) : List (List Char) := findAux s.length nulChar nulChar s

/-- `injectPackageVariables` (develop.js:185-205): find all metadata markers,
resolve each dotted path through the reduce, and replace the literal marker
text (braces restored) by the stringified value, one `String.replace` per
match occurrence. -/
def injectPackageVariables (pkg : Json) (content : List Char) : List Char :=
  let ms := findMarkers content
  if ms.isEmpty then content
  else
    ms.foldl (fun res m =>
      let value := trimChars (jsReplaceFirst m pkgHead [])
      let rep := jsToString (resolvePath pkg (splitOnDot value))
      jsReplaceFirst res (braceWrap m) rep) content

/-- `injectPackageJsonData` (develop.js:128-151) performs the same
match/resolve/replace steps as `injectPackageVariables`; its trailing call to
`writeHtmlOutput` is modelled separately in `onEnd`. -/
def injectPackageJsonData (pkg : Json) (content : List Char) : List Char :=
  injectPackageVariables pkg content

def alookupS : List (List Char × List Char) → List Char → Option (List Char)
  | [], _ => none
  | kv :: t, key => if kv.1 = key then some kv.2 else alookupS t key

def hasKey (l : List (List Char × List Char)) (k : List Char) : Bool :=
  (alookupS l k).isSome

/-- The object spread `\x7b ...english, ...activeLocale \x7d`
(develop.js:175): English keys first, with values overridden by the active
locale where present; keys only in the active locale appended after. -/
def mergeLocale (e a : List (List Char × List Char)) : List (List Char × List Char) :=
  e.map (fun kv => (kv.1, (alookupS a kv.1).getD kv.2)) ++
    a.filter (fun kv => !(hasKey e kv.1))

/-- Global replacement of a literal pattern
(`content.replace(/\x7b\x7blocaleName\x7d\x7d/g, ...)`, develop.js:177):
non-overlapping occurrences, left to right, each replacement processed with
GetSubstitution against the original text (`pre` accumulates the original
prefix).  Fuel is the remaining length. -/
def gReplAllAux (pat rep : List Char) : List Char → Nat → List Char → List Char
  | _, _, [] => []
  | _, 0, c :: t => c :: t
  | pre, n + 1, c :: t =>
    if pat ≠ [] ∧ startsWith pat (c :: t) = true then
      getSub pat pre ((c :: t).drop pat.length) rep ++
        gReplAllAux pat rep (pre ++ pat) n ((c :: t).drop pat.length)
    else c :: gReplAllAux pat rep (pre ++ [c]) n t

def gReplaceAllLit (s pat rep : List Char) : List Char :=
  gReplAllAux pat rep [] s.length s

/-- Match of `key ++ \x7d\x7d` at a position (the tail of the translate
marker regex after the optional space). -/
def trMatchTail (key s1 : List Char) : Option (List Char) :=
  if startsWith key s1 = true ∧ startsWith rb2 (s1.drop key.length) = true then
    some ((s1.drop key.length).drop rb2.length)
  else none

/-- Match, at the head of `s`, of the regex that develop.js:179 builds by
interpolating the raw key into `new RegExp` (two escaped opening braces,
`translate:`, an optional space, the key, two escaped closing braces).  The
optional space is tried greedily first.  This literal treatment of the key
is faithful exactly for keys without regex metacharacters (`plainKey`
below); for other keys the constructed pattern means something else (`a+b`
quantifies the `a`) or construction throws (`(`), and the localization
theorem restricts to plain keys.  Returns the matched text and remainder. -/
def trMatchAt (key s : List Char) : Option (List Char × List Char) :=
  if startsWith trHead s then
    match s.drop trHead.length with
    | ' ' :: s2 =>
      match trMatchTail key s2 with
      | some rest => some (trMarkerSp key, rest)
      | none =>
        (trMatchTail key (' ' :: s2)).map (fun rest => (trHead ++ key ++ rb2, rest))
    | s1 => (trMatchTail key s1).map (fun rest => (trHead ++ key ++ rb2, rest))
  else none

def plainKeyChar (c : Char) : Bool := c.isAlpha || c.isDigit || c = '_'

/-- A translate key made of ASCII letters, digits and underscores: such a
key contains no regex metacharacter, so interpolating it into the
`new RegExp` template at develop.js:179 yields a pattern that matches the
marker text literally — the domain on which `trMatchAt` is faithful. -/
def plainKey (k : List Char) : Bool := !k.isEmpty && k.all plainKeyChar

/-- Does the translate marker for `key` match anywhere in `s`? -/
def trFires (key : List Char) : List Char → Bool
  | [] => false
  | c :: t => (trMatchAt key (c :: t)).isSome || trFires key t

/-- Global replacement of the translate marker for one key
(`result.replace(regex, translations[key])`, develop.js:180). -/
def trReplAux (key v : List Char) : List Char → Nat → List Char → List Char
  | _, _, [] => []
  | _, 0, c :: t => c :: t
  | pre, n + 1, c :: t =>
    match trMatchAt key (c :: t) with
    | some mr => getSub mr.1 pre mr.2 v ++ trReplAux key v (pre ++ mr.1) n mr.2
    | none => c :: trReplAux key v (pre ++ [c]) n t

def replaceTranslateAll (s key v : List Char) : List Char :=
  trReplAux key v [] s.length s

/-- `localize` (develop.js:174-183): replace the locale-name marker, then for
every key of the merged mapping (in insertion order) replace its translate
markers. -/
def localize (e a : List (List Char × List Char)) (locNm content : List Char) : List Char :=
  (mergeLocale e a).foldl (fun res kv => replaceTranslateAll res kv.1 kv.2)
    (gReplaceAllLit content locMarker locNm)

def cssExt : List Char := ".css".data

def jsExt : List Char := ".js".data

/-- `/\.css$/.test(path)` and `/\.js$/.test(path)`. -/
def endsWithL (s suf : List Char) : Bool :=
  startsWith suf (s.drop (s.length - suf.length))

structure OutFile where
  path : List Char
  text : List Char

/-- `String.prototype.split` with a string separator (develop.js:119):
non-overlapping occurrences left to right; an empty separator splits into
single characters. -/
def splitAllAux (pat : List Char) : Nat → List Char → List (List Char)
  | 0, s => [s]
  | n + 1, s =>
    match splitFirst pat s with
    | none => [s]
    | some pr => pr.1 :: splitAllAux pat n pr.2

def splitOnSub (s pat : List Char) : List (List Char) :=
  if pat = [] then s.map (fun c => [c]) else splitAllAux pat s.length s

def undefChars : List Char := "undefined".data

/-- One iteration of the output loop in `handleBuildResult`
(develop.js:111-122): a `.css` output replaces the CSS marker via
`String.replace`; a `.js` output splits the shell on the JS marker and
concatenates `parts[0] + output + parts[1]` (a missing `parts[1]` is
JavaScript `undefined`, which string concatenation renders as
"undefined"; a third part is dropped); other paths are ignored. -/
def assembleStep (html : List Char) (o : OutFile) : List Char :=
  if endsWithL o.path cssExt then jsReplaceFirst html cssMarker o.text
  else if endsWithL o.path jsExt then
    match splitOnSub html jsMarker with
    | [] => undefChars ++ o.text ++ undefChars
    | [a] => a ++ o.text ++ undefChars
    | a :: b :: _ => a ++ o.text ++ b
  else html

/-- The loop over `[...cssResult.outputFiles, ...result.outputFiles]`. -/
def assembleOuts (shell : List Char) (outs : List OutFile) : List Char :=
  outs.foldl assembleStep shell

structure BuildResult where
  errors : List (List Char)
  outputFiles : List OutFile

/-- The ambient inputs of one rebuild cycle: the shell file (none models a
failing read of index.html), whether the synchronous CSS bundle succeeds and
its output files, the locale mappings and name, the parsed descriptor, and
whether `fs.mkdirSync` / the `fs.writeFile` callback succeed. -/
structure BuildEnv where
  shell : Option (List Char)
  cssBuildOk : Bool
  cssFiles : List OutFile
  english : List (List Char × List Char)
  active : List (List Char × List Char)
  locName : List Char
  pkg : Json
  mkdirOk : Bool
  writeOk : Bool

inductive LogEvent where
  | watchBuildFailed (errs : List (List Char))
  | fatalError
  | wroteOutput
deriving DecidableEq

/-- Observable process state: the output file on disk, whether the process
has exited (and with which code), and the console log. -/
structure DevState where
  disk : Option (List Char)
  exitCode : Option Nat
  log : List LogEvent

inductive BuildExc where
  | shellReadFailed
  | cssBuildFailed

/-- The successful-path assembly of `handleBuildResult` (develop.js:101-126):
splice the bundles into the shell, localize, inject package metadata. -/
def devAssemble (env : BuildEnv) (sh : List Char) (r : BuildResult) : List Char :=
  injectPackageJsonData env.pkg
    (localize env.english env.active env.locName
      (assembleOuts sh (env.cssFiles ++ r.outputFiles)))

/-- `handleBuildResult` up to (but not including) the file write: reading the
shell or running the synchronous CSS build can throw. -/
def handleBuildResultE (env : BuildEnv) (r : BuildResult) : Except BuildExc (List Char) :=
  match env.shell with
  | none => Except.error BuildExc.shellReadFailed
  | some sh =>
    if env.cssBuildOk then Except.ok (devAssemble env sh r)
    else Except.error BuildExc.cssBuildFailed

/-- The `onEnd` handler of the dev-output plugin (develop.js:38-52): a null
result returns; a result with errors logs them and returns; otherwise
`handleBuildResult` runs under try/catch — an exception is logged and the
process exits with status 1.  The write path (develop.js:153-162): a failed
`fs.mkdirSync` throws inside the try (caught, exit 1); an error delivered to
the `fs.writeFile` callback is re-thrown there, outside the try, and Node's
default uncaught-exception handling logs it and exits the process with
status 1 as well.  A state that has already exited no longer processes
events. -/
def onEnd (env : BuildEnv) (st : DevState) (res : Option BuildResult) : DevState :=
  if st.exitCode.isSome then st
  else
    match res with
    | none => st
    | some r =>
      if r.errors.isEmpty then
        match handleBuildResultE env r with
        | Except.error _ =>
          { st with log := st.log ++ [LogEvent.fatalError], exitCode := some 1 }
        | Except.ok html =>
          if env.mkdirOk then
            if env.writeOk then
              { st with disk := some html, log := st.log ++ [LogEvent.wroteOutput] }
            else { st with log := st.log ++ [LogEvent.fatalError], exitCode := some 1 }
          else { st with log := st.log ++ [LogEvent.fatalError], exitCode := some 1 }
      else { st with log := st.log ++ [LogEvent.watchBuildFailed r.errors] }

/-- The watch loop: build results arrive one at a time and are handled to
completion in order (esbuild awaits the async onEnd callback). -/
def processBuilds (env : BuildEnv) (st : DevState) (rs : List (Option BuildResult)) : DevState :=
  rs.foldl (onEnd env) st

structure HttpRequest where
  method : List Char
  url : List Char

structure HttpResponse where
  status : Nat
  contentType : List Char
  body : List Char

/-- The request handler (develop.js:164-172): ignores method and path,
writes a 200 header with Content-Type text/html and the synchronously read
output file.  When the file does not exist `fs.readFileSync` throws and no
response is produced (`none`). -/
def handleRequest (disk : Option (List Char)) (_req : HttpRequest) : Option HttpResponse :=
  match disk with
  | some bytes => some { status := 200, contentType := "text/html".data, body := bytes }
  | none => none

/-- Events of the startup sequence (develop.js:87-99, 153-172). -/
inductive StartEv where
  | writeStart
  | writeDone
  | listen
  | firstRequest
deriving DecidableEq

def idxIn : List StartEv → StartEv → Nat
  | [], _ => 0
  | x :: t, e => if x = e then 0 else idxIn t e + 1

def beforeIn (tr : List StartEv) (a b : StartEv) : Prop := idxIn tr a < idxIn tr b

/-- Admissible orderings of the startup events, as constrained by the code:

* `writeStart` precedes `listen`: `writeHtmlOutput` calls `fs.writeFile`
  (develop.js:157) before `start` proceeds to `startServer`;
* `writeStart` precedes `writeDone`: a write completes after it begins;
* `listen` precedes `firstRequest`: the server answers no request before it
  listens.

No constraint places `writeDone` before `listen`: `fs.writeFile` is the
callback API and returns `undefined`, so the `await` on develop.js:157 does
not wait for the write to complete. -/
def admissibleStart (tr : List StartEv) : Prop :=
  tr.Nodup ∧ StartEv.writeStart ∈ tr ∧ StartEv.writeDone ∈ tr ∧ StartEv.listen ∈ tr ∧
    StartEv.firstRequest ∈ tr ∧ beforeIn tr StartEv.writeStart StartEv.listen ∧
    beforeIn tr StartEv.writeStart StartEv.writeDone ∧
    beforeIn tr StartEv.listen StartEv.firstRequest

/- Concrete instances used by witnesses of the watch-loop claims. -/

def devEnvA : BuildEnv :=
  { shell := some "S".data, cssBuildOk := true, cssFiles := [], english := [],
    active := [], locName := "en-US".data, pkg := Json.obj [], mkdirOk := true,
    writeOk := true }

def devEnvBad : BuildEnv := { devEnvA with writeOk := false }

def devStA : DevState := { disk := some "old".data, exitCode := none, log := [] }

def devResErr : BuildResult := { errors := ["boom".data], outputFiles := [] }

def devResOk : BuildResult := { errors := [], outputFiles := [] }

/- Helper lemmas about the dotted-path reduce. -/

theorem coalesce_ne_null : ∀ o : Option Json, coalesce o ≠ Json.null
  | none => fun h => Json.noConfusion h
  | some Json.null => fun h => Json.noConfusion h
  | some (Json.bool _) => fun h => Json.noConfusion h
  | some (Json.num _) => fun h => Json.noConfusion h
  | some (Json.str _) => fun h => Json.noConfusion h
  | some (Json.arr _) => fun h => Json.noConfusion h
  | some (Json.obj _) => fun h => Json.noConfusion h

theorem coalesce_some (v : Json) (hv : v ≠ Json.null) : coalesce (some v) = v := by
  cases v with
  | null => exact absurd rfl hv
  | bool b => rfl
  | num i => rfl
  | str s => rfl
  | arr xs => rfl
  | obj fs => rfl

theorem jsStep_val_ok (pkg w : Json) (seg : List Char) :
    ∃ u, jsStep pkg (JsVal.val w) seg = Except.ok (JsVal.val u) ∧ u ≠ Json.null := by
  cases w with
  | null => exact ⟨coalesce (getProp pkg seg), rfl, coalesce_ne_null _⟩
  | bool b => exact ⟨coalesce (getProp (Json.bool b) seg), rfl, coalesce_ne_null _⟩
  | num i => exact ⟨coalesce (getProp (Json.num i) seg), rfl, coalesce_ne_null _⟩
  | str s => exact ⟨coalesce (getProp (Json.str s) seg), rfl, coalesce_ne_null _⟩
  | arr xs => exact ⟨coalesce (getProp (Json.arr xs) seg), rfl, coalesce_ne_null _⟩
  | obj fs => exact ⟨coalesce (getProp (Json.obj fs) seg), rfl, coalesce_ne_null _⟩

theorem jsStep_ok_val (pkg : Json) (acc : JsVal) (seg : List Char) (out : JsVal)
    (h : jsStep pkg acc seg = Except.ok out) : ∃ w, out = JsVal.val w ∧ w ≠ Json.null := by
  cases acc with
  | undef => exact absurd h (by simp [jsStep])
  | val v =>
    obtain ⟨u, hu, hnn⟩ := jsStep_val_ok pkg v seg
    rw [hu] at h
    injection h with h3
    exact ⟨u, h3.symm, hnn⟩

theorem resolveAux_val_total :
    ∀ (segs : List (List Char)) (pkg w : Json),
      ∃ v, resolveAux pkg (JsVal.val w) segs = Except.ok v := by
  intro segs
  induction segs with
  | nil => exact fun pkg w => ⟨JsVal.val w, rfl⟩
  | cons s rest ih =>
    intro pkg w
    obtain ⟨u, hu, _⟩ := jsStep_val_ok pkg w s
    obtain ⟨v, hv⟩ := ih pkg u
    exact ⟨v, by simp [resolveAux, hu, hv]⟩

theorem resolveAux_append (pkg : Json) (pre post : List (List Char)) :
    ∀ acc, resolveAux pkg acc (pre ++ post) =
      match resolveAux pkg acc pre with
      | Except.error e => Except.error e
      | Except.ok acc2 => resolveAux pkg acc2 post := by
  induction pre with
  | nil => intro acc; rfl
  | cons s pre ih =>
    intro acc
    simp only [List.cons_append, resolveAux]
    cases jsStep pkg acc s <;> simp [ih]

theorem jsStep_of_ne_null (pkg v : Json) (seg : List Char) (hv : v ≠ Json.null) :
    jsStep pkg (JsVal.val v) seg =
      Except.ok (JsVal.val (coalesce (getProp v seg))) := by
  cases v with
  | null => exact absurd rfl hv
  | bool b => rfl
  | num i => rfl
  | str s => rfl
  | arr xs => rfl
  | obj fs => rfl

theorem ownResolve_tail : ∀ (segs : List (List Char)) (pkg v w : Json),
    v ≠ Json.null → ownResolve v segs = some w →
    resolveAux pkg (JsVal.val v) segs = Except.ok (JsVal.val w) := by
  intro segs
  induction segs with
  | nil =>
    intro pkg v w _ h
    injection h with h2
    rw [← h2]
    rfl
  | cons s rest ih =>
    intro pkg v w hv h
    have hres : resolveAux pkg (JsVal.val v) (s :: rest) =
        resolveAux pkg (JsVal.val (coalesce (getProp v s))) rest := by
      rw [show resolveAux pkg (JsVal.val v) (s :: rest) =
          (match jsStep pkg (JsVal.val v) s with
           | Except.error e => Except.error e
           | Except.ok acc2 => resolveAux pkg acc2 rest) from rfl,
        jsStep_of_ne_null pkg v s hv]
    cases rest with
    | nil =>
      cases hg : getProp v s with
      | none =>
        rw [show ownResolve v [s] =
            (match getProp v s with
             | none => none
             | some w2 => some (coalesce (some w2))) from rfl, hg] at h
        exact absurd h (by simp)
      | some u =>
        rw [show ownResolve v [s] =
            (match getProp v s with
             | none => none
             | some w2 => some (coalesce (some w2))) from rfl, hg] at h
        have h2 : coalesce (some u) = w := by
          injection h
        rw [hres, hg]
        show Except.ok (JsVal.val (coalesce (some u))) = Except.ok (JsVal.val w)
        rw [h2]
    | cons s2 rest2 =>
      cases hg : getProp v s with
      | none =>
        rw [show ownResolve v (s :: s2 :: rest2) =
            (match getProp v s with
             | none => none
             | some w2 =>
               if isNullJson w2 then none else ownResolve w2 (s2 :: rest2)) from rfl,
          hg] at h
        exact absurd h (by simp)
      | some u =>
        rw [show ownResolve v (s :: s2 :: rest2) =
            (match getProp v s with
             | none => none
             | some w2 =>
               if isNullJson w2 then none else ownResolve w2 (s2 :: rest2)) from rfl,
          hg] at h
        have h3 : (if isNullJson u then none else ownResolve u (s2 :: rest2)) =
            some w := h
        by_cases hnu : isNullJson u = true
        · rw [if_pos hnu] at h3
          exact absurd h3 (by simp)
        · rw [if_neg hnu] at h3
          have hune : u ≠ Json.null := by
            intro he
            rw [he] at hnu
            exact hnu rfl
          rw [hres, hg, coalesce_some u hune]
          exact ih pkg u w hune h3

theorem ownResolve_run (pkg w : Json) (s : List Char) (rest : List (List Char))
    (h : ownResolve pkg (s :: rest) = some w) :
    resolveRun pkg (s :: rest) = Except.ok (JsVal.val w) := by
  have hstep0 : resolveRun pkg (s :: rest) =
      resolveAux pkg (JsVal.val (coalesce (getProp pkg s))) rest := rfl
  cases rest with
  | nil =>
    cases hg : getProp pkg s with
    | none =>
      rw [show ownResolve pkg [s] =
          (match getProp pkg s with
           | none => none
           | some w2 => some (coalesce (some w2))) from rfl, hg] at h
      exact absurd h (by simp)
    | some u =>
      rw [show ownResolve pkg [s] =
          (match getProp pkg s with
           | none => none
           | some w2 => some (coalesce (some w2))) from rfl, hg] at h
      have h2 : coalesce (some u) = w := by
        injection h
      rw [hstep0, hg]
      show Except.ok (JsVal.val (coalesce (some u))) = Except.ok (JsVal.val w)
      rw [h2]
  | cons s2 rest2 =>
    cases hg : getProp pkg s with
    | none =>
      rw [show ownResolve pkg (s :: s2 :: rest2) =
          (match getProp pkg s with
           | none => none
           | some w2 =>
             if isNullJson w2 then none else ownResolve w2 (s2 :: rest2)) from rfl,
        hg] at h
      exact absurd h (by simp)
    | some u =>
      rw [show ownResolve pkg (s :: s2 :: rest2) =
          (match getProp pkg s with
           | none => none
           | some w2 =>
             if isNullJson w2 then none else ownResolve w2 (s2 :: rest2)) from rfl,
        hg] at h
      have h3 : (if isNullJson u then none else ownResolve u (s2 :: rest2)) =
          some w := h
      by_cases hnu : isNullJson u = true
      · rw [if_pos hnu] at h3
        exact absurd h3 (by simp)
      · rw [if_neg hnu] at h3
        have hune : u ≠ Json.null := by
          intro he
          rw [he] at hnu
          exact hnu rfl
        rw [hstep0, hg, coalesce_some u hune]
        exact ownResolve_tail (s2 :: rest2) pkg u w hune h3

theorem resolvePath_of_own (pkg v : Json) (segs : List (List Char))
    (hne : segs ≠ []) (h : ownResolve pkg segs = some v) :
    resolvePath pkg segs = v := by
  cases segs with
  | nil => exact absurd rfl hne
  | cons s rest =>
    unfold resolvePath
    rw [ownResolve_run pkg v s rest h]

theorem splitOnDotAux_ne_nil : ∀ (l acc : List Char), splitOnDotAux acc l ≠ [] := by
  intro l
  induction l with
  | nil => intro acc; simp [splitOnDotAux]
  | cons c t ih =>
    intro acc
    by_cases h : c = '.'
    · simp [splitOnDotAux, h]
    · simp only [splitOnDotAux, if_neg h]
      exact ih (c :: acc)

theorem splitOnDot_ne_nil (l : List Char) : splitOnDot l ≠ [] :=
  splitOnDotAux_ne_nil l []

/-- Claim C3 (confirmed): during dotted-path resolution, whenever the
accumulated value is null the next segment is looked up in the top-level
metadata mapping (`packageJson[current]`) rather than by indexing the
accumulated value, and the reduce continues over the remaining segments;
by contrast a non-null accumulator is indexed directly. -/
theorem c3_null_restart :
    (∀ (pkg : Json) (seg : List Char) (rest : List (List Char)),
        resolveAux pkg (JsVal.val Json.null) (seg :: rest) =
          resolveAux pkg (JsVal.val (coalesce (getProp pkg seg))) rest) ∧
    (∀ (pkg v : Json) (seg : List Char), v ≠ Json.null →
        jsStep pkg (JsVal.val v) seg =
          Except.ok (JsVal.val (coalesce (getProp v seg)))) := by
  constructor
  · intro pkg seg rest; rfl
  · intro pkg v seg hv
    cases v with
    | null => exact absurd rfl hv
    | bool b => rfl
    | num i => rfl
    | str s => rfl
    | arr xs => rfl
    | obj fs => rfl

/-- Witness for C3 at concrete inputs: the first segment of
`\x7b\x7bpackage.json:name\x7d\x7d` is read from the top level (accumulator
null), and a non-null accumulator is indexed directly. -/
theorem c3_null_restart_wit :
    resolveAux (Json.obj [("name".data, Json.str "fw".data)]) (JsVal.val Json.null)
        ["name".data] = Except.ok (JsVal.val (Json.str "fw".data)) ∧
    jsStep (Json.obj []) (JsVal.val (Json.str "ab".data)) lengthChars =
      Except.ok (JsVal.val (Json.num 2)) := by
  constructor
  · exact (c3_null_restart.1 (Json.obj [("name".data, Json.str "fw".data)])
      "name".data []).trans rfl
  · exact (c3_null_restart.2 (Json.obj []) (Json.str "ab".data) lengthChars
      (fun h => Json.noConfusion h)).trans rfl

/-- Claim C2 counterexample: the claim asserts that a marker whose path has a
missing segment resolves to the empty string.  With no top-level `a`, the
marker `\x7b\x7bpackage.json:a.length\x7d\x7d` resolves segment `a` to the
empty string, but the next segment reads the `length` property of that empty
string, which is 0 — the marker resolves to "0", not to "". -/
theorem c2_cex :
    injectPackageVariables (Json.obj [])
        "\x7b\x7bpackage.json:a.length\x7d\x7d".data = "0".data ∧
    "0".data ≠ ([] : List Char) := by
  constructor
  · decide
  · decide

/-- Claim C2 (amended): while the accumulator ranges over JSON data — which
`?? ''` guarantees, since it never lets `undefined` through — the reduce
never throws: a missing segment yields undefined and degrades to the empty
string at that step.  (In the source an exception is reachable only by first
resolving an inherited built-in method name — a function, outside the JSON
data model — and then reading its restricted caller/arguments property.)
The marker `\x7b\x7bpackage.json:name\x7d\x7d` resolves to the descriptor's
top-level `name` field, and `\x7b\x7bpackage.json:a.b.c\x7d\x7d` with `a`
missing or null resolves to the empty string: `b` and `c` name no own or
inherited property of the empty string, so it is preserved.  (Later segments
that do name a property of `''` behave differently — see the
counterexample, where `length` yields 0.) -/
theorem c2_resolution :
    (∀ (pkg : Json) (segs : List (List Char)), ∃ v, resolveRun pkg segs = Except.ok v) ∧
    (∀ pkg : Json,
        getProp pkg "a".data = none ∨ getProp pkg "a".data = some Json.null →
        resolveRun pkg ["a".data, "b".data, "c".data] =
          Except.ok (JsVal.val (Json.str []))) ∧
    (∀ (pkg v : Json), getProp pkg "name".data = some v → v ≠ Json.null →
        resolveRun pkg ["name".data] = Except.ok (JsVal.val v)) := by
  refine ⟨?_, ?_, ?_⟩
  · intro pkg segs
    exact resolveAux_val_total segs pkg Json.null
  · intro pkg h
    show resolveAux pkg (JsVal.val (coalesce (getProp pkg "a".data)))
      ["b".data, "c".data] = Except.ok (JsVal.val (Json.str []))
    rcases h with h | h
    · rw [h]
      rfl
    · rw [h]
      rfl
  · intro pkg v hget hv
    have h1 : resolveRun pkg ["name".data] =
        Except.ok (JsVal.val (coalesce (getProp pkg "name".data))) := rfl
    rw [h1, hget, coalesce_some v hv]

/-- Witness for C2 at concrete inputs: totality on a two-segment path;
`a.b.c` with `a` missing resolves to the empty string; `name` resolves to
the name field. -/
theorem c2_resolution_wit :
    (∃ v, resolveRun (Json.obj []) ["a".data, "b".data] = Except.ok v) ∧
    resolveRun (Json.obj [("x".data, Json.str "1".data)])
      ["a".data, "b".data, "c".data] = Except.ok (JsVal.val (Json.str [])) ∧
    resolveRun (Json.obj [("name".data, Json.str "fw".data)]) ["name".data] =
      Except.ok (JsVal.val (Json.str "fw".data)) := by
  refine ⟨?_, ?_, ?_⟩
  · exact c2_resolution.1 (Json.obj []) ["a".data, "b".data]
  · exact c2_resolution.2.1 (Json.obj [("x".data, Json.str "1".data)]) (Or.inl rfl)
  · exact c2_resolution.2.2 (Json.obj [("name".data, Json.str "fw".data)])
      (Json.str "fw".data) rfl (fun h => Json.noConfusion h)

/-- Claim C10 counterexample: the claim asserts that for paths of two or more
segments a missing value at a later segment yields the empty string for the
remainder of the reduction.  With `pkg = \x7b a: \x7b\x7d \x7d` and path
`a.b.length`, segment `b` is missing (accumulator degrades to ""), but the
later segment `length` reads the empty string's length — the resolution ends
at 0 and the marker renders as "0", not "". -/
theorem c10_cex :
    resolveRun (Json.obj [("a".data, Json.obj [])])
        ["a".data, "b".data, lengthChars] = Except.ok (JsVal.val (Json.num 0)) ∧
    injectPackageVariables (Json.obj [("a".data, Json.obj [])])
        "\x7b\x7bpackage.json:a.b.length\x7d\x7d".data = "0".data ∧
    "0".data ≠ ([] : List Char) := by
  refine ⟨rfl, by decide, by decide⟩

/-- Claim C10 (amended): every reduce step that returns yields a defined,
non-null accumulator (missing and null lookups are coerced to the empty
string), so the accumulator is null only before the first segment and the
top-level-restart branch can execute only there; after a nonempty prefix
the accumulator is never null, so resolution never restarts at a later
segment.  A missing value at a later segment yields the empty string at
that step, and what follows depends on the empty string's properties rather
than on the top-level fields: a next segment naming no property of `''`
(such as `b`) keeps it empty, while its `length` property yields the number
0 instead (counterexample). -/
theorem c10_accumulator :
    (∀ (pkg : Json) (acc : JsVal) (seg : List Char) (out : JsVal),
        jsStep pkg acc seg = Except.ok out → ∃ w, out = JsVal.val w ∧ w ≠ Json.null) ∧
    (∀ (pkg : Json) (pre : List (List Char)) (acc2 : JsVal),
        pre ≠ [] → resolveRun pkg pre = Except.ok acc2 → acc2 ≠ JsVal.val Json.null) ∧
    (∀ pkg : Json, getProp pkg "a".data = none →
        resolveRun pkg ["a".data, "b".data] = Except.ok (JsVal.val (Json.str [])) ∧
        resolveRun pkg ["a".data, lengthChars] =
          Except.ok (JsVal.val (Json.num 0))) := by
  refine ⟨jsStep_ok_val, ?_, ?_⟩
  · intro pkg pre acc2 hne hrun
    rcases List.eq_nil_or_concat pre with rfl | ⟨pre1, s, rfl⟩
    · exact absurd rfl hne
    · unfold resolveRun at hrun
      rw [List.concat_eq_append, resolveAux_append pkg pre1 [s]] at hrun
      cases hmid : resolveAux pkg (JsVal.val Json.null) pre1 with
      | error e => rw [hmid] at hrun; exact absurd hrun (by simp)
      | ok acc1 =>
        rw [hmid] at hrun
        simp only [resolveAux] at hrun
        cases hstep : jsStep pkg acc1 s with
        | error e => rw [hstep] at hrun; exact absurd hrun (by simp)
        | ok out =>
          rw [hstep] at hrun
          simp only [resolveAux] at hrun
          obtain ⟨w, hw, hwn⟩ := jsStep_ok_val pkg acc1 s out hstep
          injection hrun with h2
          intro hbad
          rw [← h2, hw] at hbad
          injection hbad with h3
          exact hwn h3
  · intro pkg h
    constructor
    · show resolveAux pkg (JsVal.val (coalesce (getProp pkg "a".data)))
        ["b".data] = Except.ok (JsVal.val (Json.str []))
      rw [h]
      rfl
    · show resolveAux pkg (JsVal.val (coalesce (getProp pkg "a".data)))
        [lengthChars] = Except.ok (JsVal.val (Json.num 0))
      rw [h]
      rfl

/-- Witness for C10 at concrete inputs. -/
theorem c10_accumulator_wit :
    (∃ w, JsVal.val (Json.str []) = JsVal.val w ∧ w ≠ Json.null) ∧
    JsVal.val (Json.str []) ≠ JsVal.val Json.null ∧
    (resolveRun (Json.obj []) ["a".data, "b".data] =
        Except.ok (JsVal.val (Json.str [])) ∧
      resolveRun (Json.obj []) ["a".data, lengthChars] =
        Except.ok (JsVal.val (Json.num 0))) := by
  refine ⟨?_, ?_, ?_⟩
  · exact c10_accumulator.1 (Json.obj []) (JsVal.val Json.null) "a".data
      (JsVal.val (Json.str [])) rfl
  · exact c10_accumulator.2.1 (Json.obj []) ["a".data] (JsVal.val (Json.str []))
      (by simp) rfl
  · exact c10_accumulator.2.2 (Json.obj []) rfl

/- Helper lemmas about GetSubstitution and literal replacement. -/

theorem getSub_bounded (pat pre post : List Char) :
    ∀ (n : Nat) (r : List Char), r.length ≤ n → hasDollarSeq r = false →
      getSub pat pre post r = r := by
  intro n
  induction n with
  | zero =>
    intro r hlen _
    have hr : r = [] := List.length_eq_zero.mp (Nat.le_zero.mp hlen)
    subst hr; rfl
  | succ n ih =>
    intro r hlen hseq
    match r with
    | [] => rfl
    | c :: r1 =>
      by_cases hc : c = dollarChar
      · subst hc
        match r1 with
        | [] => simp [getSub]
        | c2 :: r2 =>
          by_cases hor : c2 = dollarChar ∨ c2 = '&' ∨ c2 = btChar ∨ c2 = qChar
          · rw [show hasDollarSeq (dollarChar :: c2 :: r2) = true from by
              rw [hasDollarSeq.eq_def]; simp [hor]] at hseq
            exact Bool.noConfusion hseq
          · have hseq2 : hasDollarSeq (c2 :: r2) = false := by
              rw [show hasDollarSeq (dollarChar :: c2 :: r2) =
                  hasDollarSeq (c2 :: r2) from by
                rw [hasDollarSeq.eq_def]; simp [hor]] at hseq
              exact hseq
            push_neg at hor
            obtain ⟨h1, h2, h3, h4⟩ := hor
            have hlen2 : (c2 :: r2).length ≤ n := by
              simp only [List.length_cons] at hlen ⊢
              omega
            rw [show getSub pat pre post (dollarChar :: c2 :: r2) =
                dollarChar :: getSub pat pre post (c2 :: r2) from by
              rw [getSub.eq_def]; simp [h1, h2, h3, h4]]
            rw [ih (c2 :: r2) hlen2 hseq2]
      · have hseq1 : hasDollarSeq r1 = false := by
          rw [show hasDollarSeq (c :: r1) = hasDollarSeq r1 from by
            rw [hasDollarSeq.eq_def]; simp [hc]] at hseq
          exact hseq
        have hlen1 : r1.length ≤ n := by
          simp only [List.length_cons] at hlen
          omega
        rw [show getSub pat pre post (c :: r1) = c :: getSub pat pre post r1 from by
          rw [getSub.eq_def]; simp [hc]]
        rw [ih r1 hlen1 hseq1]

theorem getSub_no_seq (pat pre post r : List Char) (h : hasDollarSeq r = false) :
    getSub pat pre post r = r :=
  getSub_bounded pat pre post r.length r le_rfl h

/-- Claim C1 counterexample: the claim asserts that the output contains the
resolved value unchanged whenever the marker is found.  With the descriptor
value `$&` — characters that are special in pattern matching — the
replacement string of `String.replace` re-inserts the matched marker text,
so the output is the marker itself and does not contain the resolved value. -/
theorem c1_cex :
    injectPackageVariables (Json.obj [("name".data, Json.str "$&".data)])
        "\x7b\x7bpackage.json:name\x7d\x7d".data =
      "\x7b\x7bpackage.json:name\x7d\x7d".data ∧
    containsSubB
      (injectPackageVariables (Json.obj [("name".data, Json.str "$&".data)])
        "\x7b\x7bpackage.json:name\x7d\x7d".data) "$&".data = false := by
  constructor
  · decide
  · decide

/-- Claim C1 (amended): for a marker whose dotted path resolves through own
properties of the descriptor's JSON data (every lookup hits, intermediate
values non-null — so the prototype chain is never consulted and the
resolved value is JSON data, not an inherited built-in function) to a
primitive value, the marker search is literal — the exact marker text is
replaced at its first occurrence, unaffected by pattern-special characters
in the value — and the resolved value is inserted verbatim provided it
contains none of the replacement-string sequences `$$`, `$&`, backtick
after `$`, `$'` that `String.replace` interprets. -/
theorem c1_literal (pkg : Json) (content m pre post rep : List Char) (v : Json)
    (hm : findMarkers content = [m])
    (hown : ownResolve pkg
      (splitOnDot (trimChars (jsReplaceFirst m pkgHead []))) = some v)
    (hprim : isPrimJson v = true)
    (hrep : rep = jsToString v)
    (hdollar : hasDollarSeq rep = false)
    (hsplit : splitFirst (braceWrap m) content = some (pre, post)) :
    injectPackageVariables pkg content = pre ++ rep ++ post := by
  have hne : splitOnDot (trimChars (jsReplaceFirst m pkgHead [])) ≠ [] :=
    splitOnDot_ne_nil _
  have hpath : resolvePath pkg
      (splitOnDot (trimChars (jsReplaceFirst m pkgHead []))) = v :=
    resolvePath_of_own pkg v _ hne hown
  unfold injectPackageVariables
  rw [hm]
  simp only [List.isEmpty_cons, List.foldl_cons, List.foldl_nil, Bool.false_eq_true,
    if_false]
  rw [hpath, ← hrep]
  unfold jsReplaceFirst
  rw [hsplit]
  show pre ++ getSub (braceWrap m) pre post rep ++ post = pre ++ rep ++ post
  rw [getSub_no_seq _ _ _ _ hdollar]

/-- Witness for C1: a name field holding a value full of pattern-special
characters (parentheses, asterisks, dots) is inserted verbatim by the
literal replacement. -/
theorem c1_literal_wit :
    injectPackageVariables (Json.obj [("name".data, Json.str "FW (dev) *1.0*".data)])
        "A\x7b\x7bpackage.json:name\x7d\x7dB".data =
      "A".data ++ "FW (dev) *1.0*".data ++ "B".data := by
  exact c1_literal (Json.obj [("name".data, Json.str "FW (dev) *1.0*".data)])
    "A\x7b\x7bpackage.json:name\x7d\x7dB".data "package.json:name".data
    "A".data "B".data "FW (dev) *1.0*".data (Json.str "FW (dev) *1.0*".data)
    (by decide) rfl rfl rfl (by decide) (by decide)

/-- Claim C6 counterexample: the claim asserts that neither marker string
reappears in the assembled document even if the injected content
coincidentally contains similar substrings.  When the injected script text
is itself the string `\x7b\x7bjsOutput\x7d\x7d`, the splice concatenates it
verbatim between the shell parts, and the assembled document contains the
JS marker again. -/
theorem c6_cex :
    assembleOuts "A\x7b\x7bcssOutput\x7d\x7dB\x7b\x7bjsOutput\x7d\x7dC".data
        [OutFile.mk "i.css".data "X".data,
         OutFile.mk "i.js".data "\x7b\x7bjsOutput\x7d\x7d".data] =
      "AXB\x7b\x7bjsOutput\x7d\x7dC".data ∧
    containsSubB
      (assembleOuts "A\x7b\x7bcssOutput\x7d\x7dB\x7b\x7bjsOutput\x7d\x7dC".data
        [OutFile.mk "i.css".data "X".data,
         OutFile.mk "i.js".data "\x7b\x7bjsOutput\x7d\x7d".data]) jsMarker = true := by
  constructor
  · decide
  · decide

/-- Claim C6 (amended): with the CSS marker occurring once (splitting the
shell as `P ++ cssMarker ++ (Q ++ jsMarker ++ R)`), a `$`-sequence-free CSS
text, and the JS marker still occurring exactly once after the CSS
injection, assembly replaces the CSS marker once by the style text and
splices the script text at the JS marker by splitting and concatenating —
the script text is inserted verbatim (even if it contains pattern-special
characters), and marker text can reappear only if the injected content
itself contains it. -/
theorem c6_assembly (shell P Q R css js pc pj : List Char)
    (hpc : endsWithL pc cssExt = true)
    (hpj1 : endsWithL pj cssExt = false) (hpj2 : endsWithL pj jsExt = true)
    (hdollar : hasDollarSeq css = false)
    (h1 : splitFirst cssMarker shell = some (P, Q ++ jsMarker ++ R))
    (h2 : splitOnSub (P ++ css ++ (Q ++ jsMarker ++ R)) jsMarker = [P ++ css ++ Q, R]) :
    assembleOuts shell [OutFile.mk pc css, OutFile.mk pj js] =
      P ++ css ++ Q ++ js ++ R := by
  unfold assembleOuts
  simp only [List.foldl_cons, List.foldl_nil]
  have e1 : assembleStep shell (OutFile.mk pc css) = P ++ css ++ (Q ++ jsMarker ++ R) := by
    unfold assembleStep
    simp only [hpc, if_true]
    unfold jsReplaceFirst
    rw [h1]
    show P ++ getSub cssMarker P (Q ++ jsMarker ++ R) css ++ (Q ++ jsMarker ++ R) = _
    rw [getSub_no_seq _ _ _ _ hdollar]
  rw [e1]
  unfold assembleStep
  simp only [hpj1, hpj2, Bool.false_eq_true, if_false, if_true]
  rw [h2]

/-- Witness for C6: script text containing regex- and replacement-special
characters (`$&`, `$1`, a regex literal) is spliced verbatim, and the CSS
text contains braces. -/
theorem c6_assembly_wit :
    assembleOuts "A\x7b\x7bcssOutput\x7d\x7dB\x7b\x7bjsOutput\x7d\x7dC".data
        [OutFile.mk "build/index.css".data "h2 \x7b color: red \x7d".data,
         OutFile.mk "build/index.js".data "s.replace(/a$/, n)?$&:$1".data] =
      "A".data ++ "h2 \x7b color: red \x7d".data ++ "B".data ++
        "s.replace(/a$/, n)?$&:$1".data ++ "C".data := by
  exact c6_assembly "A\x7b\x7bcssOutput\x7d\x7dB\x7b\x7bjsOutput\x7d\x7dC".data
    "A".data "B".data "C".data "h2 \x7b color: red \x7d".data
    "s.replace(/a$/, n)?$&:$1".data "build/index.css".data "build/index.js".data
    (by decide) (by decide) (by decide) (by decide) (by decide) (by decide)

/- Helper lemmas for the localization claims. -/

theorem startsWith_append_self : ∀ p t : List Char, startsWith p (p ++ t) = true := by
  intro p
  induction p with
  | nil => intro t; rfl
  | cons c p ih => intro t; simp [startsWith, ih]

theorem containsSubB_cons (pat : List Char) (c : Char) (t : List Char)
    (h : containsSubB (c :: t) pat = false) :
    startsWith pat (c :: t) = false ∧ containsSubB t pat = false := by
  unfold containsSubB at h ⊢
  rw [splitFirst] at h
  by_cases hs : startsWith pat (c :: t) = true
  · rw [if_pos hs] at h
    exact absurd h (by simp)
  · rw [if_neg hs] at h
    refine ⟨Bool.eq_false_iff.mpr hs, ?_⟩
    cases hsp : splitFirst pat t with
    | none => rfl
    | some pr => rw [hsp] at h; exact absurd h (by simp)

theorem gReplAllAux_no_occur (pat rep : List Char) :
    ∀ (n : Nat) (s pre : List Char), s.length ≤ n → containsSubB s pat = false →
      gReplAllAux pat rep pre n s = s := by
  intro n
  induction n with
  | zero =>
    intro s pre hlen _
    have hs : s = [] := List.length_eq_zero.mp (Nat.le_zero.mp hlen)
    subst hs; rfl
  | succ n ih =>
    intro s pre hlen hno
    match s with
    | [] => rfl
    | c :: t =>
      obtain ⟨hs, ht⟩ := containsSubB_cons pat c t hno
      have hcond : ¬(pat ≠ [] ∧ startsWith pat (c :: t) = true) := by
        intro hand
        rw [hs] at hand
        exact Bool.noConfusion hand.2
      have hlen2 : t.length ≤ n := by
        simp only [List.length_cons] at hlen
        omega
      rw [show gReplAllAux pat rep pre (n + 1) (c :: t) =
          c :: gReplAllAux pat rep (pre ++ [c]) n t from by
        rw [gReplAllAux.eq_def]; simp [hcond]]
      rw [ih t (pre ++ [c]) hlen2 ht]

theorem gReplaceAllLit_no_occur (s pat rep : List Char)
    (h : containsSubB s pat = false) : gReplaceAllLit s pat rep = s :=
  gReplAllAux_no_occur pat rep s.length s [] le_rfl h

theorem trFires_cons (key : List Char) (c : Char) (t : List Char)
    (h : trFires key (c :: t) = false) :
    trMatchAt key (c :: t) = none ∧ trFires key t = false := by
  rw [trFires] at h
  cases hm : trMatchAt key (c :: t) with
  | some mr => rw [hm] at h; exact absurd h (by simp)
  | none =>
    rw [hm] at h
    simp only [Option.isSome_none, Bool.false_or] at h
    exact ⟨rfl, h⟩

theorem trReplAux_no_fire (key v : List Char) :
    ∀ (n : Nat) (s pre : List Char), s.length ≤ n → trFires key s = false →
      trReplAux key v pre n s = s := by
  intro n
  induction n with
  | zero =>
    intro s pre hlen _
    have hs : s = [] := List.length_eq_zero.mp (Nat.le_zero.mp hlen)
    subst hs; rfl
  | succ n ih =>
    intro s pre hlen hno
    match s with
    | [] => rfl
    | c :: t =>
      obtain ⟨hm, ht⟩ := trFires_cons key c t hno
      have hlen2 : t.length ≤ n := by
        simp only [List.length_cons] at hlen
        omega
      rw [show trReplAux key v pre (n + 1) (c :: t) =
          (match trMatchAt key (c :: t) with
           | some mr => getSub mr.1 pre mr.2 v ++ trReplAux key v (pre ++ mr.1) n mr.2
           | none => c :: trReplAux key v (pre ++ [c]) n t) from rfl]
      rw [hm]
      rw [ih t (pre ++ [c]) hlen2 ht]

theorem replaceTranslateAll_no_fire (s key v : List Char)
    (h : trFires key s = false) : replaceTranslateAll s key v = s :=
  trReplAux_no_fire key v s.length s [] le_rfl h

theorem foldl_translate_fixed (L : List (List Char × List Char)) (s : List Char)
    (h : ∀ kv ∈ L, replaceTranslateAll s kv.1 kv.2 = s) :
    L.foldl (fun res kv => replaceTranslateAll res kv.1 kv.2) s = s := by
  induction L with
  | nil => rfl
  | cons kv L ih =>
    simp only [List.foldl_cons]
    rw [h kv (List.mem_cons_self _ _)]
    exact ih (fun x hx => h x (List.mem_cons_of_mem _ hx))

theorem startsWith_refl (l : List Char) : startsWith l l = true := by
  have h := startsWith_append_self l []
  rwa [List.append_nil] at h

theorem trMatchTail_self (key : List Char) : trMatchTail key (key ++ rb2) = some [] := by
  unfold trMatchTail
  have ha : startsWith key (key ++ rb2) = true := startsWith_append_self _ _
  have hb : (key ++ rb2).drop key.length = rb2 := List.drop_left _ _
  rw [if_pos ⟨ha, by rw [hb]; exact startsWith_refl rb2⟩, hb, List.drop_length]

theorem trMatchAt_marker (key : List Char) :
    trMatchAt key (trMarkerSp key) = some (trMarkerSp key, []) := by
  unfold trMatchAt
  have h1 : startsWith trHead (trMarkerSp key) = true := by
    unfold trMarkerSp
    exact startsWith_append_self _ _
  have h2 : (trMarkerSp key).drop trHead.length = ' ' :: (key ++ rb2) := by
    unfold trMarkerSp
    exact List.drop_left _ _
  rw [if_pos h1, h2]
  show (match trMatchTail key (key ++ rb2) with
        | some rest => some (trMarkerSp key, rest)
        | none =>
          (trMatchTail key (' ' :: (key ++ rb2))).map
            (fun rest => (trHead ++ key ++ rb2, rest))) = some (trMarkerSp key, [])
  rw [trMatchTail_self]

theorem trReplAux_start (key v pre : List Char) (n : Nat) (c : Char) (t m rest : List Char)
    (hm : trMatchAt key (c :: t) = some (m, rest)) :
    trReplAux key v pre (n + 1) (c :: t) =
      getSub m pre rest v ++ trReplAux key v (pre ++ m) n rest := by
  rw [show trReplAux key v pre (n + 1) (c :: t) =
      (match trMatchAt key (c :: t) with
       | some mr => getSub mr.1 pre mr.2 v ++ trReplAux key v (pre ++ mr.1) n mr.2
       | none => c :: trReplAux key v (pre ++ [c]) n t) from rfl]
  rw [hm]

theorem replaceTranslateAll_marker (key V : List Char)
    (hdollar : hasDollarSeq V = false) :
    replaceTranslateAll (trMarkerSp key) key V = V := by
  unfold replaceTranslateAll
  have hform : trMarkerSp key =
      lbr :: (lbr :: ("translate:".data ++ (' ' :: (key ++ rb2)))) := rfl
  have hmatch : trMatchAt key
      (lbr :: (lbr :: ("translate:".data ++ (' ' :: (key ++ rb2))))) =
      some (trMarkerSp key, []) := by
    rw [← hform]
    exact trMatchAt_marker key
  calc trReplAux key V [] (trMarkerSp key).length (trMarkerSp key)
      = trReplAux key V []
          ((lbr :: ("translate:".data ++ (' ' :: (key ++ rb2)))).length + 1)
          (lbr :: (lbr :: ("translate:".data ++ (' ' :: (key ++ rb2))))) := by
        rw [← hform]
        rfl
    _ = getSub (trMarkerSp key) [] [] V ++
          trReplAux key V ([] ++ trMarkerSp key)
            (lbr :: ("translate:".data ++ (' ' :: (key ++ rb2)))).length [] := by
        rw [trReplAux_start _ _ _ _ _ _ _ _ hmatch]
    _ = V := by
        rw [getSub_no_seq _ _ _ _ hdollar]
        show V ++ [] = V
        exact List.append_nil V

theorem alookupS_append (l1 l2 : List (List Char × List Char)) (k : List Char) :
    alookupS (l1 ++ l2) k =
      match alookupS l1 k with
      | some v => some v
      | none => alookupS l2 k := by
  induction l1 with
  | nil => rfl
  | cons kv t ih =>
    by_cases h : kv.1 = k
    · simp [alookupS, h]
    · simp only [List.cons_append, alookupS, if_neg h]
      exact ih

theorem alookupS_mapped (e a : List (List Char × List Char)) (k : List Char) :
    alookupS (e.map (fun kv => (kv.1, (alookupS a kv.1).getD kv.2))) k =
      (alookupS e k).map (fun w => (alookupS a k).getD w) := by
  induction e with
  | nil => rfl
  | cons kv t ih =>
    by_cases h : kv.1 = k
    · simp [alookupS, List.map_cons, h]
    · simp only [List.map_cons, alookupS, if_neg h]
      exact ih

theorem alookupS_filter_keys (e a : List (List Char × List Char)) (k : List Char) :
    alookupS (a.filter (fun kv => !(hasKey e kv.1))) k =
      if hasKey e k = true then none else alookupS a k := by
  induction a with
  | nil => simp [alookupS]
  | cons kv t ih =>
    by_cases hk : hasKey e kv.1 = true
    · have hdrop : (kv :: t).filter (fun kv => !(hasKey e kv.1)) =
          t.filter (fun kv => !(hasKey e kv.1)) := by
        simp [List.filter_cons, hk]
      rw [hdrop, ih]
      by_cases hkk : kv.1 = k
      · rw [← hkk]
        simp [hk, alookupS]
      · simp [alookupS, hkk]
    · have hkeep : (kv :: t).filter (fun kv => !(hasKey e kv.1)) =
          kv :: t.filter (fun kv => !(hasKey e kv.1)) := by
        simp [List.filter_cons, hk]
      rw [hkeep]
      by_cases hkk : kv.1 = k
      · have hfk : hasKey e k = false := by
          rw [← hkk]
          exact Bool.eq_false_iff.mpr hk
        simp [alookupS, hkk, hfk]
      · simp only [alookupS, if_neg hkk]
        exact ih

theorem mergeLocale_lookup (e a : List (List Char × List Char)) (k : List Char) :
    alookupS (mergeLocale e a) k =
      match alookupS a k with
      | some v => some v
      | none => alookupS e k := by
  unfold mergeLocale
  rw [alookupS_append, alookupS_mapped, alookupS_filter_keys]
  cases he : alookupS e k with
  | some w =>
    cases ha : alookupS a k with
    | some v => simp
    | none => simp
  | none =>
    have hfk : hasKey e k = false := by
      unfold hasKey
      rw [he]
      rfl
    cases ha : alookupS a k with
    | some v => simp [hfk, ha]
    | none => simp [hfk, ha]

theorem alookupS_split (l : List (List Char × List Char)) (k V : List Char)
    (h : alookupS l k = some V) :
    ∃ L1 L2, l = L1 ++ (k, V) :: L2 ∧ ∀ kv ∈ L1, kv.1 ≠ k := by
  induction l with
  | nil => exact absurd h (by simp [alookupS])
  | cons kv t ih =>
    by_cases hk : kv.1 = k
    · refine ⟨[], t, ?_, by simp⟩
      rw [alookupS, if_pos hk] at h
      injection h with h2
      cases kv with
      | mk k0 v0 =>
        simp only at hk h2
        rw [hk, h2]
        rfl
    · rw [alookupS, if_neg hk] at h
      obtain ⟨L1, L2, hl, hne⟩ := ih h
      refine ⟨kv :: L1, L2, by rw [List.cons_append, hl], ?_⟩
      intro x hx
      rcases List.mem_cons.mp hx with rfl | hx2
      · exact hk
      · exact hne x hx2

theorem keys_nodup_right (L1 L2 : List (List Char × List Char)) (k V : List Char)
    (h : ((L1 ++ (k, V) :: L2).map Prod.fst).Nodup) : ∀ kv ∈ L2, kv.1 ≠ k := by
  intro kv hkv heq
  rw [List.map_append, List.map_cons] at h
  have h2 : (k :: L2.map Prod.fst).Nodup := (List.nodup_append.mp h).2.1
  apply (List.nodup_cons.mp h2).1
  rw [← heq]
  exact List.mem_map_of_mem Prod.fst hkv

/-- Claim C4 (confirmed): for a translate key K — with every key of the
merged mapping plain (letters, digits, underscores: no regex
metacharacters, so the `new RegExp` built at develop.js:179 matches the
marker text literally and never throws), keys unique after the merge, no
marker for another key matching the content or the substituted value, and a
substituted value free of `$`-sequences and of further markers —
substituting the translate marker for K yields the active mapping's value
when K is in the active mapping (in particular when it is in both), and the
default (English) mapping's value when K is absent from the active mapping:
active overrides default, default fills gaps. -/
theorem c4_locale_override (e a : List (List Char × List Char))
    (nm K V content : List Char)
    (hcontent : content = trMarkerSp K)
    (hnodup : ((mergeLocale e a).map Prod.fst).Nodup)
    (hkeys : ∀ kv ∈ mergeLocale e a, plainKey kv.1 = true)
    (hK : alookupS a K = some V ∨ (alookupS a K = none ∧ alookupS e K = some V))
    (hdollar : hasDollarSeq V = false)
    (hnoloc : containsSubB content locMarker = false)
    (hothers : ∀ kv ∈ mergeLocale e a, kv.1 ≠ K →
        trFires kv.1 content = false ∧ trFires kv.1 V = false) :
    localize e a nm content = V := by
  have hlk : alookupS (mergeLocale e a) K = some V := by
    rw [mergeLocale_lookup]
    rcases hK with h1 | ⟨h1, h2⟩
    · rw [h1]
    · rw [h1, h2]
  obtain ⟨L1, L2, hsplit, hL1⟩ := alookupS_split _ _ _ hlk
  have hL2 : ∀ kv ∈ L2, kv.1 ≠ K := by
    apply keys_nodup_right L1 L2 K V
    rw [← hsplit]
    exact hnodup
  unfold localize
  rw [gReplaceAllLit_no_occur content locMarker nm hnoloc]
  rw [hsplit, List.foldl_append]
  have hfix1 : L1.foldl (fun res kv => replaceTranslateAll res kv.1 kv.2) content =
      content := by
    apply foldl_translate_fixed
    intro kv hkv
    have hmem : kv ∈ mergeLocale e a := by
      rw [hsplit]
      exact List.mem_append_left _ hkv
    exact replaceTranslateAll_no_fire _ _ _ ((hothers kv hmem (hL1 kv hkv)).1)
  rw [hfix1]
  simp only [List.foldl_cons]
  rw [hcontent, replaceTranslateAll_marker K V hdollar]
  apply foldl_translate_fixed
  intro kv hkv
  have hmem : kv ∈ mergeLocale e a := by
    rw [hsplit]
    exact List.mem_append_right _ (List.mem_cons_of_mem _ hkv)
  exact replaceTranslateAll_no_fire _ _ _ ((hothers kv hmem (hL2 kv hkv)).2)

/-- Witness for C4: `greet` present in both mappings resolves to the active
(French) value. -/
theorem c4_locale_override_wit :
    localize [("greet".data, "Hello".data)] [("greet".data, "Bonjour".data)]
      "fr".data (trMarkerSp "greet".data) = "Bonjour".data := by
  exact c4_locale_override [("greet".data, "Hello".data)]
    [("greet".data, "Bonjour".data)] "fr".data "greet".data "Bonjour".data
    (trMarkerSp "greet".data) rfl (by decide) (by decide) (Or.inl (by decide))
    (by decide) (by decide) (by decide)

/-- Claim C5 (confirmed): a watched rebuild that reports errors performs no
assembly and no write — the state of the output file is unchanged, the
errors are logged, the process does not exit — and a subsequent error-free
build result in the same loop assembles and writes normally. -/
theorem c5_error_skip (env : BuildEnv) (st : DevState) (r r2 : BuildResult)
    (sh : List Char)
    (h0 : st.exitCode = none) (herr : r.errors ≠ [])
    (h2 : r2.errors = []) (hsh : env.shell = some sh)
    (hcss : env.cssBuildOk = true) (hmk : env.mkdirOk = true)
    (hwr : env.writeOk = true) :
    (onEnd env st (some r)).disk = st.disk ∧
    (onEnd env st (some r)).exitCode = none ∧
    (onEnd env st (some r)).log = st.log ++ [LogEvent.watchBuildFailed r.errors] ∧
    (processBuilds env st [some r, some r2]).disk = some (devAssemble env sh r2) ∧
    (processBuilds env st [some r, some r2]).exitCode = none := by
  have hie : r.errors.isEmpty = false := by
    cases hre : r.errors with
    | nil => exact absurd hre herr
    | cons x xs => rfl
  have e1 : onEnd env st (some r) =
      { st with log := st.log ++ [LogEvent.watchBuildFailed r.errors] } := by
    unfold onEnd
    rw [h0]
    simp [hie]
  have e2 : onEnd env { st with log := st.log ++ [LogEvent.watchBuildFailed r.errors] }
      (some r2) =
      DevState.mk (some (devAssemble env sh r2)) st.exitCode
        ((st.log ++ [LogEvent.watchBuildFailed r.errors]) ++ [LogEvent.wroteOutput]) := by
    unfold onEnd
    simp only [h0, h2, Option.isSome_none, Bool.false_eq_true, if_false,
      List.isEmpty_nil, if_true]
    unfold handleBuildResultE
    rw [hsh]
    simp [hcss, hmk, hwr]
  have e3 : processBuilds env st [some r, some r2] =
      onEnd env (onEnd env st (some r)) (some r2) := rfl
  refine ⟨by rw [e1], by rw [e1]; exact h0, by rw [e1], ?_, ?_⟩
  · rw [e3, e1, e2]
  · rw [e3, e1, e2]
    exact h0

/-- Witness for C5 at concrete inputs: the failing build leaves the old
output in place and does not exit; the following clean build writes. -/
theorem c5_error_skip_wit :
    (onEnd devEnvA devStA (some devResErr)).disk = some "old".data ∧
    (onEnd devEnvA devStA (some devResErr)).exitCode = none ∧
    (onEnd devEnvA devStA (some devResErr)).log =
      devStA.log ++ [LogEvent.watchBuildFailed devResErr.errors] ∧
    (processBuilds devEnvA devStA [some devResErr, some devResOk]).disk =
      some (devAssemble devEnvA "S".data devResOk) ∧
    (processBuilds devEnvA devStA [some devResErr, some devResOk]).exitCode = none := by
  exact c5_error_skip devEnvA devStA devResErr devResOk "S".data rfl
    (by decide) rfl rfl rfl rfl rfl

/-- Claim C8 (confirmed): an exception raised during HTML assembly (shell
read, synchronous CSS build) or during the write of the output file
(`fs.mkdirSync`, or the error re-thrown in the `fs.writeFile` callback,
which Node's default uncaught-exception handling turns into a logged crash)
leads to the error being logged and the process terminating with exit
status 1. -/
theorem c8_fatal_exit (env : BuildEnv) (st : DevState) (r : BuildResult)
    (h0 : st.exitCode = none) (hok : r.errors = [])
    (hfail : env.shell = none ∨ env.cssBuildOk = false ∨ env.mkdirOk = false ∨
      env.writeOk = false) :
    (onEnd env st (some r)).exitCode = some 1 ∧
    (onEnd env st (some r)).log = st.log ++ [LogEvent.fatalError] := by
  have hie : r.errors.isEmpty = true := by rw [hok]; rfl
  constructor <;>
    (rcases hfail with h | h | h | h <;>
      cases hs : env.shell <;> cases hc : env.cssBuildOk <;>
        cases hm2 : env.mkdirOk <;> cases hw : env.writeOk <;>
        simp_all [onEnd, handleBuildResultE])

/-- Witness for C8: a failing `fs.writeFile` callback (the only failure in an
otherwise healthy cycle) still ends with exit status 1 and a logged error. -/
theorem c8_fatal_exit_wit :
    (onEnd devEnvBad devStA (some devResOk)).exitCode = some 1 ∧
    (onEnd devEnvBad devStA (some devResOk)).log =
      devStA.log ++ [LogEvent.fatalError] := by
  exact c8_fatal_exit devEnvBad devStA devResOk rfl rfl
    (Or.inr (Or.inr (Or.inr rfl)))

/-- Claim C9 (confirmed): for every request, whatever its method and path,
and for any current bytes of the output file, the response is 200 with
Content-Type text/html and a body equal to those bytes. -/
theorem c9_server_response (bytes : List Char) (req : HttpRequest) :
    handleRequest (some bytes) req =
      some { status := 200, contentType := "text/html".data, body := bytes } := rfl

/-- Claim C7 refutation (code bug): the startup constraints admit a schedule
in which the first request is served before the output write completes —
`await fs.writeFile(path, html, cb)` awaits the `undefined` returned by the
callback-style API, so the server may start listening before the file
exists; serving a request then makes `fs.readFileSync` throw (no response).
The claim that the output file exists on disk before the first request is
therefore not guaranteed by the code. -/
theorem c7_write_race :
    admissibleStart
      [StartEv.writeStart, StartEv.listen, StartEv.firstRequest, StartEv.writeDone] ∧
    beforeIn
      [StartEv.writeStart, StartEv.listen, StartEv.firstRequest, StartEv.writeDone]
      StartEv.firstRequest StartEv.writeDone ∧
    handleRequest none { method := "GET".data, url := "/".data } = none := by
  refine ⟨?_, ?_, rfl⟩
  · unfold admissibleStart beforeIn
    refine ⟨by decide, by decide, by decide, by decide, by decide, by decide,
      by decide, by decide⟩
  · unfold beforeIn
    decide
